import Mathlib

/-!
Verification of the datas-go pipeline core.

This file embeds, in Lean, the parts of the repository that the
specification's testable properties concern:

* `storage/memory_queue.go` — the thread-safe priority queue built on
  Go's `container/heap` (array-based binary min-heap with `up`/`down`
  sifting, `Less` comparing `Item.Priority` with `<`);
* `handler/block_handler.go` — the block fetch retry loop and the
  vote/failed-transaction filter followed by the signature fanout;
* `handler/transaction_handler.go` — the sub-batch splitting
  (`slices.Chunk(sigs, 50)`), the round-robin client assignment
  (`i % clientCount`) and the persistence filter over
  `ParsedTransaction`;
* the `rpc` websocket clients (`WebSocketClient`, `PumpPortalClient`):
  connect / close / disconnect state machines and the subscription map;
* the Helius enhanced API client (`ParseTransactions` /
  `makeRequestWithAuth`).

Concurrency (mutexes, goroutines) is serialised away: every queue or
client operation is modelled as an atomic state transformation, which
is exactly what the per-operation mutexes guarantee.
-/

namespace DatasGo

/-! ## Priority queue (`storage/memory_queue.go` + Go `container/heap`)

`Item` is `storage.Item`: an opaque value plus an `int64` priority.
The backing store `priorityQueueImpl` is a Go slice ordered as a binary
min-heap; we model the slice as a `List` (index 0 is the root, the
children of `i` are `2i+1` and `2i+2`, the parent of `j` is
`(j-1)/2`).  `Less i j` is `pq[i].Priority < pq[j].Priority`.  The
`index` field of `storage.Item` is maintained by `container/heap` to
mirror the slice position and carries no extra information, so it is
not modelled. -/

structure Item (α : Type) where
  value : α
  priority : Int
deriving DecidableEq, Repr

/-- Go `h.Less(i, j)`: `pq[i].Priority < pq[j].Priority`; false when an
index is out of bounds (the sift loops only compare in-bounds
indices). -/
def lessAt {α : Type} (l : List (Item α)) (i j : Nat) : Bool :=
  match l[i]?, l[j]? with
  | some a, some b => a.priority < b.priority
  | _, _ => false

/-- Non-strict counterpart of `lessAt`, vacuously true out of bounds.
Used to state the heap-order invariant. -/
def leAt {α : Type} (l : List (Item α)) (i j : Nat) : Bool :=
  match l[i]?, l[j]? with
  | some a, some b => a.priority ≤ b.priority
  | _, _ => true

/-- Go `h.Swap(i, j)`: exchange the elements at indices `i` and `j`.
Out of bounds (never reached by the sift loops) it is the identity. -/
def swap {α : Type} (l : List (Item α)) (i j : Nat) : List (Item α) :=
  match l[i]?, l[j]? with
  | some a, some b => (l.set i b).set j a
  | _, _ => l

/-- Fuel-indexed body of Go `container/heap.up`.  The first argument
only bounds the recursion depth (the index strictly decreases, so any
fuel `≥ j` gives the same result — `upF_congr` below); it makes the
function structurally recursive and hence kernel-computable. -/
def upF {α : Type} : Nat → List (Item α) → Nat → List (Item α)
  | 0, l, _ => l
  | fuel + 1, l, j =>
    if j = 0 then l
    else
      if lessAt l j ((j - 1) / 2) then upF fuel (swap l ((j - 1) / 2) j) ((j - 1) / 2)
      else l

/-- Go `container/heap.up(h, j)`: bubble the element at `j` towards the
root while it is strictly smaller than its parent `(j-1)/2` (the loop
breaks when `i == j`, i.e. at the root, or when `!h.Less(j, i)`).
`up_eq` below restates this as the Go loop's literal step equation. -/
def up {α : Type} (l : List (Item α)) (j : Nat) : List (Item α) :=
  upF j l j

/-- The index of the child that `down` compares against: the right
child `2i+2` when it is within `n` and strictly smaller than the left
child `2i+1`, else the left child. -/
def downChild {α : Type} (l : List (Item α)) (i n : Nat) : Nat :=
  if 2 * i + 2 < n ∧ lessAt l (2 * i + 2) (2 * i + 1) then 2 * i + 2
  else 2 * i + 1

/-- Fuel-indexed body of Go `container/heap.down`.  The fuel only
bounds the recursion depth (`n - i` strictly decreases, so any fuel
`≥ n - i` gives the same result — `downF_congr` below). -/
def downF {α : Type} : Nat → List (Item α) → Nat → Nat → List (Item α)
  | 0, l, _, _ => l
  | fuel + 1, l, i, n =>
    if n ≤ 2 * i + 1 then l
    else if lessAt l (downChild l i n) i then
      downF fuel (swap l i (downChild l i n)) (downChild l i n) n
    else l

/-- Go `container/heap.down(h, i, n)`: within the prefix of length `n`,
push the element at `i` towards the leaves, swapping with its smaller
child while that child is strictly smaller.  `down_eq` below restates
this as the Go loop's literal step equation. -/
def down {α : Type} (l : List (Item α)) (i n : Nat) : List (Item α) :=
  downF (n - i) l i n

/-- Go `container/heap.Push(h, x)` on `priorityQueueImpl`: the
interface method appends, then `up` restores heap order at the last
index. -/
def heapPushGo {α : Type} (l : List (Item α)) (x : Item α) : List (Item α) :=
  up (l ++ [x]) l.length

/-- Go `container/heap.Pop(h)` on `priorityQueueImpl`: swap root and
last, sift the new root down within the first `n = len-1` positions,
then the interface method removes and returns the last element (the
old root).  Returns the removed item and the remaining slice; `none`
on the empty slice (the wrapper checks `Len` first). -/
def heapPopGo {α : Type} (l : List (Item α)) : Option (Item α × List (Item α)) :=
  if l.isEmpty then none
  else
    let n := l.length - 1
    let l2 := down (swap l 0 n) 0 n
    match l2.getLast? with
    | some x => some (x, l2.dropLast)
    | none => none

/-- The repository's `storage.PriorityQueue` (mutex dropped: every
operation is atomic). -/
structure PriorityQueue (α : Type) where
  heapList : List (Item α)
deriving DecidableEq, Repr

/-- The fresh queue made by `storage.NewPriorityQueue`. -/
def PriorityQueue.new (α : Type) : PriorityQueue α := ⟨[]⟩

/-- `storage.PriorityQueue.Push(value, priority)`. -/
def PriorityQueue.Push {α : Type} (q : PriorityQueue α) (value : α)
    (priority : Int) : PriorityQueue α :=
  ⟨heapPushGo q.heapList ⟨value, priority⟩⟩

/-- `storage.PriorityQueue.Pop()`: `(nil, 0, false)` and an unchanged
queue when empty, else the minimum-priority item, `true`, and the
shrunken queue. -/
def PriorityQueue.Pop {α : Type} (q : PriorityQueue α) :
    (Option α × Int × Bool) × PriorityQueue α :=
  if q.heapList.length = 0 then ((none, 0, false), q)
  else
    match heapPopGo q.heapList with
    | some (it, rest) => ((some it.value, it.priority, true), ⟨rest⟩)
    | none => ((none, 0, false), q)

/-- `storage.PriorityQueue.Len()`. -/
def PriorityQueue.Len {α : Type} (q : PriorityQueue α) : Nat :=
  q.heapList.length

/-- Push a whole list of `(value, rank)` pairs in order. -/
def PriorityQueue.pushAll {α : Type} (q : PriorityQueue α)
    (ps : List (α × Int)) : PriorityQueue α :=
  ps.foldl (fun acc p => acc.Push p.1 p.2) q

/-- Pop up to `fuel` times, stopping at the first unsuccessful pop,
collecting the returned `(value, rank)` pairs.  With `fuel = q.Len`
this is exactly "repeated `Pop` until the queue is empty" (each
successful pop shrinks the queue by one, which is proved below). -/
def drainAux {α : Type} : Nat → PriorityQueue α → List (α × Int)
  | 0, _ => []
  | Nat.succ fuel, q =>
    match q.Pop with
    | ((some v, rank, _), q2) => (v, rank) :: drainAux fuel q2
    | ((none, _, _), _) => []

/-- Repeatedly `Pop` until the queue reports empty. -/
def PriorityQueue.drain {α : Type} (q : PriorityQueue α) : List (α × Int) :=
  drainAux q.Len q

/-- The binary min-heap ordering invariant of `priorityQueueImpl`:
every non-root position is no smaller than its parent. -/
def IsHeap {α : Type} (l : List (Item α)) : Prop :=
  ∀ j, j < l.length → 0 < j → leAt l ((j - 1) / 2) j = true

instance {α : Type} (l : List (Item α)) : Decidable (IsHeap l) := by
  unfold IsHeap; infer_instance

/-- Heap order everywhere except possibly at the edge into `j`, and
the grandparent of `j` already bounds the children of `j`: the
invariant maintained by `up`. -/
def HeapExceptUp {α : Type} (l : List (Item α)) (j : Nat) : Prop :=
  (∀ k, k < l.length → 0 < k → k ≠ j → leAt l ((k - 1) / 2) k = true)
  ∧ (0 < j → ∀ k, k < l.length → (k - 1) / 2 = j → leAt l ((j - 1) / 2) k = true)

/-- Heap order restricted to indices below `n`. -/
def HeapBelow {α : Type} (l : List (Item α)) (n : Nat) : Prop :=
  ∀ k, k < n → 0 < k → leAt l ((k - 1) / 2) k = true

/-- Heap order below `n` everywhere except possibly on the edges out
of `i`, and the parent of `i` already bounds the children of `i`: the
invariant maintained by `down`. -/
def HeapExceptDown {α : Type} (l : List (Item α)) (n i : Nat) : Prop :=
  (∀ k, k < n → 0 < k → (k - 1) / 2 ≠ i → leAt l ((k - 1) / 2) k = true)
  ∧ (0 < i → ∀ k, k < n → (k - 1) / 2 = i → leAt l ((i - 1) / 2) k = true)

/-! ## Substring matching (`strings.Contains`)

Used by the vote-transaction filter of `handler/block_handler.go`. -/

/-- Whether `pat` occurs at the head of `s`. -/
def matchesHere : List Char → List Char → Bool
  | [], _ => true
  | _ :: _, [] => false
  | a :: as, b :: bs => a == b && matchesHere as bs

/-- Whether `pat` occurs anywhere in `s`. -/
def hasSubList (pat : List Char) : List Char → Bool
  | [] => pat.isEmpty
  | b :: bs => matchesHere pat (b :: bs) || hasSubList pat bs

/-- Go `strings.Contains(s, pat)`. -/
def strContains (s pat : String) : Bool :=
  hasSubList pat.data s.data

/-! ## Block handler (`handler/block_handler.go`)

Model of `handleBlock`: the bounded retry loop around
`rpc.GlobalHeliusClient.GetBlock`, then the vote / on-chain-failure
filter and the signature fanout into the transaction queue. -/

/-- Marker program of consensus (vote) transactions searched for in the
log output. -/
def voteMarker : String := "Vote111111111111111111111111111111111111111"

/-- One attempt's outcome of `GetBlock`: a transport error, a `nil`
response, a non-nil empty response, or a usable raw block `β`. -/
inductive FetchOutcome (β : Type) where
  | err
  | nilResp
  | emptyResp
  | ok (block : β)
deriving DecidableEq, Repr

/-- Observable result of the `handleBlock` retry loop: how many
`GetBlock` calls were made from this point on, how many
"重试5次获取区块数据失败" (abandoned-slot) logs were emitted, and the
block obtained, if any. -/
structure FetchLoopRes (β : Type) where
  calls : Nat
  abandonLogs : Nat
  result : Option β
deriving DecidableEq, Repr

/-- The retry loop of `handleBlock` (`for { if i > 5 { … return }; … }`),
entered with counter `i`: each failing call (error, nil, or empty
response) increments `i`; a non-empty response breaks with the block.
`fetch k` is the outcome of the `k`-th call (the counter equals the
number of calls already made). -/
def fetchLoopF {β : Type} (fetch : Nat → FetchOutcome β) : Nat → Nat → FetchLoopRes β
  | 0, _ => { calls := 0, abandonLogs := 1, result := none }
  | fuel + 1, i =>
    if i > 5 then { calls := 0, abandonLogs := 1, result := none }
    else
      match fetch i with
      | .ok b => { calls := 1, abandonLogs := 0, result := some b }
      | _ =>
        let r := fetchLoopF fetch fuel (i + 1)
        { calls := r.calls + 1, abandonLogs := r.abandonLogs, result := r.result }

/-- Entry into the retry loop at counter `i` (the loop runs at most
`6 - i` more iterations before the `i > 5` guard fires; `fetchLoop_eq`
below restates the literal loop step). -/
def fetchLoop {β : Type} (fetch : Nat → FetchOutcome β) (i : Nat) : FetchLoopRes β :=
  fetchLoopF fetch (6 - i) i

/-- `models/resp.Err`: `InstructionError []interface{}` — `none`
models the nil slice, `some l` a non-nil slice whose elements we treat
as opaque. -/
structure ErrInfo where
  instructionError : Option (List Unit)
deriving DecidableEq, Repr

/-- `models/resp.Status`. -/
structure TxStatus where
  err : ErrInfo
deriving DecidableEq, Repr

/-- The parts of `models/resp.Meta` inspected by `handleBlock`. -/
structure TxMeta where
  logMessages : List String
  status : TxStatus
deriving DecidableEq, Repr

/-- The parts of `models/resp.Transaction` inspected by `handleBlock`. -/
structure TxInner where
  signatures : List String
deriving DecidableEq, Repr

/-- `models/resp.Transactions`: one transaction of a fetched block. -/
structure BlockTx where
  meta : TxMeta
  transaction : TxInner
deriving DecidableEq, Repr

/-- The vote flag computed by `handleBlock`'s inner loop: some log
message contains the vote marker program (the nil/length guard on
`LogMessages` is equivalent to `any` over the empty list). -/
def isVoteTx (t : BlockTx) : Bool :=
  t.meta.logMessages.any (fun m => strContains m voteMarker)

/-- `handleBlock`'s on-chain failure test:
`transaction.Meta.Status.Err.InstructionError != nil && len(…) > 0`. -/
def txFailed (t : BlockTx) : Bool :=
  match t.meta.status.err.instructionError with
  | some l => decide (0 < l.length)
  | none => false

/-- The `trans` accumulation loop of `handleBlock`: skip vote
transactions, skip on-chain failures, keep the rest in block order. -/
def collectTrans : List BlockTx → List BlockTx
  | [] => []
  | t :: ts =>
    if isVoteTx t then collectTrans ts
    else if txFailed t then collectTrans ts
    else t :: collectTrans ts

/-- `models.TransactionQueueModel`. -/
structure TransactionQueueModel where
  signatures : List String
  slot : Nat
deriving DecidableEq, Repr

/-- The fanout tail of `handleBlock`: collect the signatures of the
kept transactions in order and, if any, push one
`TransactionQueueModel` with priority `int64(slot)` to the transaction
queue.  Returns the list of `(value, rank)` pushes performed. -/
def handleBlockFanout (slot : Nat) (txs : List BlockTx) :
    List (TransactionQueueModel × Int) :=
  let trans := collectTrans txs
  let signatures := trans.flatMap (fun t => t.transaction.signatures)
  if 0 < signatures.length then [(⟨signatures, slot⟩, Int.ofNat slot)] else []

/-- Observable effects of one `handleBlock(ctx, slot)` call. -/
structure HandleBlockRes where
  fetchCalls : Nat
  abandonLogs : Nat
  txQueuePushes : List (TransactionQueueModel × Int)
  blockQueuePushes : List (Nat × Int)
deriving DecidableEq, Repr

/-- Tail of `handleBlock` after the retry loop finished with `r`: a
missing block means the loop returned (slot abandoned); a block on
which `json.Unmarshal` fails (`some none`) is logged and dropped;
otherwise the filter-and-fanout tail runs.  `handleBlock` contains no
push to the block queue on any path, hence `blockQueuePushes = []` on
every branch. -/
def handleBlockOf (r : FetchLoopRes (Option (List BlockTx))) (slot : Nat) :
    HandleBlockRes :=
  match r.result with
  | none => ⟨r.calls, r.abandonLogs, [], []⟩
  | some none => ⟨r.calls, r.abandonLogs, [], []⟩
  | some (some txs) => ⟨r.calls, r.abandonLogs, handleBlockFanout slot txs, []⟩

/-- Whole-of-`handleBlock` model.  A successful fetch carries
`Option (List BlockTx)`: `none` models a block payload on which
`json.Unmarshal` fails, `some txs` the parsed transaction list. -/
def handleBlockM (fetch : Nat → FetchOutcome (Option (List BlockTx)))
    (slot : Nat) : HandleBlockRes :=
  handleBlockOf (fetchLoop fetch 0) slot

/-! ## Transaction handler (`handler/transaction_handler.go`)

`StartProcessTransactionQueue` pops one `TransactionQueueModel`, splits
its signatures with `slices.Chunk(sigs, 50)` and dispatches the `i`-th
chunk to client `i % clientCount`; `processTransactionBatch` filters
the parsed transactions and persists via `StoreHash`. -/

/-- Go `slices.Chunk(l, n)` for `n ≥ 1`: successive sub-slices of at
most `n` elements.  (Go panics on `n < 1`; the call site uses the
constant 50, and we return `[]` for `n = 0` to stay total.) -/
def chunkListF {α : Type} (n : Nat) : Nat → List α → List (List α)
  | 0, _ => []
  | fuel + 1, l =>
    if l.isEmpty ∨ n = 0 then [] else l.take n :: chunkListF n fuel (l.drop n)

/-- `chunkList n l` is `slices.Chunk(l, n)` proper; `chunkList_eq`
below restates the direct recursion. -/
def chunkList {α : Type} (n : Nat) (l : List α) : List (List α) :=
  chunkListF n l.length l

/-- The dispatch loop of `StartProcessTransactionQueue`: the chunk seen
at loop counter `i` goes to client `i % clientCount`. -/
def assignClients (clientCount : Nat) : Nat → List (List String) → List (Nat × List String)
  | _, [] => []
  | i, c :: cs => (i % clientCount, c) :: assignClients clientCount (i + 1) cs

/-- One enrichment cycle's dispatch plan for a popped batch: chunks of
50 in signature order, round-robin client indices starting at 0. -/
def processTransactionCycle (clientCount : Nat) (batch : TransactionQueueModel) :
    List (Nat × List String) :=
  assignClients clientCount 0 (chunkList 50 batch.signatures)

/-- `models/resp.TransactionError`. -/
structure TransactionErrorGo where
  error : String
  instructionError : Option (List Unit)
deriving DecidableEq, Repr

/-- The parts of `models/resp.ParsedTransaction` inspected by
`processTransactionBatch` (`ttype` stands for the Go field `Type`). -/
structure ParsedTransaction where
  ttype : String
  source : String
  signature : String
  transactionError : Option TransactionErrorGo
deriving DecidableEq, Repr

/-- `models/resp.NeedToParseTransactionType` (as type-constant
strings, in source order). -/
def NeedToParseTransactionType : List String :=
  ["TRANSFER", "BURN", "TOKEN_MINT", "SWAP", "INITIALIZE_ACCOUNT", "UNLABELED"]

/-- One `StoreHash(key, field, value, ttl)` call on the Redis facade. -/
structure StoreHashCall where
  key : String
  field : String
  value : String
  ttl : Nat
deriving DecidableEq, Repr

/-- The skip test of `processTransactionBatch`:
`TransactionError != nil && InstructionError != nil && len(…) > 0`. -/
def hasNonEmptyInstructionError (t : ParsedTransaction) : Bool :=
  match t.transactionError with
  | some te =>
    match te.instructionError with
    | some l => decide (0 < l.length)
    | none => false
  | none => false

/-- Persistence decision of `processTransactionBatch` for one parsed
transaction: skip on a non-nil non-empty instruction error, persist
the per-source marker and the per-(source, type) record keyed by
signature (both with ttl 0) when the type is of interest. -/
def persistTx (t : ParsedTransaction) : List StoreHashCall :=
  if hasNonEmptyInstructionError t then []
  else if NeedToParseTransactionType.contains t.ttype then
    [⟨t.source, t.source, t.ttype, 0⟩,
     ⟨t.source ++ "_" ++ t.ttype, t.signature, t.ttype, 0⟩]
  else []

/-- The persistence loop of `processTransactionBatch` over the parsed
response. -/
def processBatchPersists (ts : List ParsedTransaction) : List StoreHashCall :=
  ts.flatMap persistTx

/-! ## Streaming clients (`rpc` package)

Shared observable state of `WebSocketClient` (src/unnamed/part_001)
and `PumpPortalClient` (`rpc/pump_portal.go`): the `closed` flag, the
`reconnect` flag, and the current transport connection.  A dial
outcome is supplied by the environment. -/

/-- The fields of the two clients' state relevant to connect / close /
disconnect handling. -/
structure ClientState where
  closed : Bool
  reconnect : Bool
  conn : Option Nat
deriving DecidableEq, Repr

/-- Environment outcome of one `dialer.DialContext` attempt. -/
inductive DialOutcome where
  | failDial
  | newConn (id : Nat)
deriving DecidableEq, Repr

/-- Observable result of one client operation. -/
structure ClientStepRes where
  state : ClientState
  dials : List Nat
  dialAttempts : Nat
  errored : Bool
  scheduledReconnect : Bool
deriving DecidableEq, Repr

/-- `WebSocketClient.Connect`: fails if `closed`; otherwise it dials
unconditionally — there is no already-connected check — and on success
stores the new connection (replacing any existing one) and starts the
loops. -/
def wsConnect (s : ClientState) (dial : DialOutcome) : ClientStepRes :=
  if s.closed then ⟨s, [], 0, true, false⟩
  else
    match dial with
    | .failDial => ⟨s, [], 1, true, false⟩
    | .newConn id => ⟨{ s with conn := some id }, [id], 1, false, false⟩

/-- `PumpPortalClient.Connect`: fails if `closed`; returns `nil`
without dialing if already connected (`c.conn != nil`); otherwise
dials. -/
def ppConnect (s : ClientState) (dial : DialOutcome) : ClientStepRes :=
  if s.closed then ⟨s, [], 0, true, false⟩
  else if s.conn.isSome then ⟨s, [], 0, false, false⟩
  else
    match dial with
    | .failDial => ⟨s, [], 1, true, false⟩
    | .newConn id => ⟨{ s with conn := some id }, [id], 1, false, false⟩

/-- `WebSocketClient.Close` and `PumpPortalClient.Close` (identical on
the modelled state): no-op when already closed, else set `closed`,
disable reconnection, and close the transport (the Go code keeps the
stale pointer; the connection object is released). -/
def clientClose (s : ClientState) : ClientStepRes :=
  if s.closed then ⟨s, [], 0, false, false⟩
  else ⟨{ closed := true, reconnect := false, conn := s.conn }, [], 0, false, false⟩

/-- `handleDisconnect` of both clients: a no-op when `closed` or
reconnection is disabled; otherwise discard the dead transport and
schedule a reconnect attempt. -/
def clientHandleDisconnect (s : ClientState) : ClientStepRes :=
  if s.closed || !s.reconnect then ⟨s, [], 0, false, false⟩
  else ⟨{ s with conn := none }, [], 0, false, true⟩

/-- The operations that can touch a client's connection state. -/
inductive ClientOp where
  | connect (dial : DialOutcome)
  | close
  | disconnect
deriving DecidableEq, Repr

/-- One step of the `WebSocketClient`. -/
def wsStep (s : ClientState) : ClientOp → ClientStepRes
  | .connect d => wsConnect s d
  | .close => clientClose s
  | .disconnect => clientHandleDisconnect s

/-- One step of the `PumpPortalClient`. -/
def ppStep (s : ClientState) : ClientOp → ClientStepRes
  | .connect d => ppConnect s d
  | .close => clientClose s
  | .disconnect => clientHandleDisconnect s

/-- Run a sequence of operations, collecting every transport
connection established along the way. -/
def runOps (step : ClientState → ClientOp → ClientStepRes) :
    ClientState → List ClientOp → ClientState × List Nat
  | s, [] => (s, [])
  | s, op :: ops =>
    let r := step s op
    let (s2, ds) := runOps step r.state ops
    (s2, r.dials ++ ds)

/-! ## Subscription map of `WebSocketClient` (src/unnamed/part_001)

`subscribe` sends the request for the given method but stores the
handler under the fixed key `"slotNotification"`; `unsubscribe`
deletes the given subscription name; the read loop dispatches an
inbound notification only when its `method` is non-empty and present
in the map. -/

/-- The `subscriptions` map, handlers abstracted to identifiers. -/
def SubsMap : Type := String → Option Nat

/-- The empty map created by `NewWebSocketClientOptions`. -/
def emptySubs : SubsMap := fun _ => none

/-- `WebSocketClient.subscribe(method, params, handler)` (connection
established): regardless of `method`, the handler is stored under the
key `"slotNotification"`. -/
def subscribeGo (subs : SubsMap) (_method : String) (handler : Nat) : SubsMap :=
  fun k => if k = "slotNotification" then some handler else subs k

/-- `WebSocketClient.unsubscribe(method, subscriptionName)`
(connection established): deletes `subscriptionName` from the map. -/
def unsubscribeGo (subs : SubsMap) (subscriptionName : String) : SubsMap :=
  fun k => if k = subscriptionName then none else subs k

/-- Whether the read loop dispatches an inbound notification with the
given non-empty `method`: it looks the method up in the map and spawns
the handler only if present. -/
def dispatches (subs : SubsMap) (method : String) : Bool :=
  if method = "" then false else (subs method).isSome

/-- Map-mutating operations on the subscription map. -/
inductive SubsOp where
  | sub (method : String) (handler : Nat)
  | unsub (name : String)

/-- Apply one subscription-map operation. -/
def subsStep (subs : SubsMap) : SubsOp → SubsMap
  | .sub m h => subscribeGo subs m h
  | .unsub n => unsubscribeGo subs n

/-- Apply a sequence of subscription-map operations. -/
def subsRun (subs : SubsMap) : List SubsOp → SubsMap
  | [] => subs
  | op :: ops => subsRun (subsStep subs op) ops

/-- The key invariant: every key present in the map is the fixed key
`"slotNotification"`. -/
def SubsInv (subs : SubsMap) : Prop :=
  ∀ k, (subs k).isSome = true → k = "slotNotification"

/-! ## Helius enhanced API client (src/unnamed/part_002)

`ParseTransactions` rejects an empty signature list before any
request; `makeRequestWithAuth` errors exactly on request-creation
failure, transport failure, body-read failure, or a non-200 status. -/

/-- Environment outcome of one HTTP round trip. -/
inductive HttpOutcome where
  | createErr
  | doErr
  | readErr
  | resp (status : Nat) (body : String)
deriving DecidableEq, Repr

/-- `makeRequestWithAuth`: result and the number of
`httpClient.Do` invocations performed. -/
def makeRequestWithAuth (out : HttpOutcome) : Except String String × Nat :=
  match out with
  | .createErr => (Except.error "create HTTP request failed", 0)
  | .doErr => (Except.error "send HTTP request failed", 1)
  | .readErr => (Except.error "read response body failed", 1)
  | .resp status body =>
    if status = 200 then (Except.ok body, 1)
    else (Except.error "API request failed with non-200 status", 1)

/-- `ParseTransactions(signatures…)`: result and the number of
`httpClient.Do` invocations.  `marshalOk` is the outcome of
`json.Marshal` on the request body (it cannot actually fail on a
string-slice struct, but the code checks it). -/
def parseTransactionsGo (sigs : List String) (marshalOk : Bool)
    (out : HttpOutcome) : Except String String × Nat :=
  if sigs.length = 0 then (Except.error "at least one signature required", 0)
  else if marshalOk = false then (Except.error "serialize request failed", 0)
  else
    match makeRequestWithAuth out with
    | (Except.error e, n) => (Except.error ("parse transactions failed: " ++ e), n)
    | (Except.ok b, n) => (Except.ok b, n)

/-! ## Fuel elimination: the fuel-indexed recursions agree with the Go
loops for any sufficient fuel, giving the loops' literal step
equations. -/

theorem upF_congr {α : Type} :
    ∀ (f1 f2 : Nat) (l : List (Item α)) (j : Nat),
      j ≤ f1 → j ≤ f2 → upF f1 l j = upF f2 l j := by
  intro f1
  induction f1 with
  | zero =>
    intro f2 l j h1 h2
    have hj : j = 0 := by omega
    subst hj
    cases f2 <;> simp [upF]
  | succ f1 ih =>
    intro f2 l j h1 h2
    cases f2 with
    | zero =>
      have hj : j = 0 := by omega
      subst hj
      simp [upF]
    | succ f2 =>
      simp only [upF]
      by_cases hj : j = 0
      · rw [if_pos hj, if_pos hj]
      · rw [if_neg hj, if_neg hj]
        by_cases hl : lessAt l j ((j - 1) / 2) = true
        · rw [if_pos hl, if_pos hl]
          exact ih f2 _ _ (by omega) (by omega)
        · rw [if_neg hl, if_neg hl]

theorem up_eq {α : Type} (l : List (Item α)) (j : Nat) :
    up l j = if j = 0 then l
      else if lessAt l j ((j - 1) / 2) then up (swap l ((j - 1) / 2) j) ((j - 1) / 2)
      else l := by
  unfold up
  cases j with
  | zero => simp [upF]
  | succ j =>
    simp only [upF]
    by_cases hl : lessAt l (j + 1) ((j + 1 - 1) / 2) = true
    · rw [if_neg (by omega), if_pos hl, if_neg (by omega), if_pos hl]
      exact upF_congr j _ _ _ (by omega) (by omega)
    · rw [if_neg (by omega), if_neg hl, if_neg (by omega), if_neg hl]

theorem downChild_parent {α : Type} {l : List (Item α)} {i n : Nat} :
    (downChild l i n - 1) / 2 = i := by
  unfold downChild
  split <;> omega

theorem downChild_gt {α : Type} {l : List (Item α)} {i n : Nat} :
    i < downChild l i n := by
  unfold downChild
  split <;> omega

theorem downChild_lt {α : Type} {l : List (Item α)} {i n : Nat}
    (h1 : ¬ n ≤ 2 * i + 1) : downChild l i n < n := by
  unfold downChild
  split
  case isTrue h => omega
  case isFalse h => omega

theorem downF_congr {α : Type} :
    ∀ (f1 f2 : Nat) (l : List (Item α)) (i n : Nat),
      n - i ≤ f1 → n - i ≤ f2 → downF f1 l i n = downF f2 l i n := by
  intro f1
  induction f1 with
  | zero =>
    intro f2 l i n h1 h2
    cases f2 with
    | zero => rfl
    | succ f2 =>
      simp only [downF]
      rw [if_pos (by omega)]
  | succ f1 ih =>
    intro f2 l i n h1 h2
    cases f2 with
    | zero =>
      simp only [downF]
      rw [if_pos (by omega)]
    | succ f2 =>
      simp only [downF]
      by_cases hn : n ≤ 2 * i + 1
      · rw [if_pos hn, if_pos hn]
      · rw [if_neg hn, if_neg hn]
        by_cases hl : lessAt l (downChild l i n) i = true
        · rw [if_pos hl, if_pos hl]
          have hgt : i < downChild l i n := downChild_gt
          exact ih f2 _ _ _ (by omega) (by omega)
        · rw [if_neg hl, if_neg hl]

theorem down_eq {α : Type} (l : List (Item α)) (i n : Nat) :
    down l i n = if n ≤ 2 * i + 1 then l
      else if lessAt l (downChild l i n) i then
        down (swap l i (downChild l i n)) (downChild l i n) n
      else l := by
  unfold down
  by_cases h1 : n ≤ 2 * i + 1
  · rw [if_pos h1]
    cases hni : n - i with
    | zero => rfl
    | succ f =>
      simp only [downF]
      rw [if_pos h1]
  · rw [if_neg h1]
    have hni : n - i = (n - i - 1) + 1 := by omega
    rw [hni]
    simp only [downF]
    rw [if_neg h1]
    by_cases hl : lessAt l (downChild l i n) i = true
    · rw [if_pos hl, if_pos hl]
      have hgt : i < downChild l i n := downChild_gt
      exact downF_congr (n - i - 1) (n - downChild l i n) _ _ _ (by omega) le_rfl
    · rw [if_neg hl, if_neg hl]

/-! ## Heap lemmas: `swap` -/

theorem swap_length {α : Type} (l : List (Item α)) (i j : Nat) :
    (swap l i j).length = l.length := by
  unfold swap
  cases hi : l[i]? <;> cases hj : l[j]? <;> simp

theorem getElem?_swap {α : Type} {l : List (Item α)} {i j : Nat}
    (hi : i < l.length) (hj : j < l.length) (k : Nat) :
    (swap l i j)[k]? = if k = j then l[i]? else if k = i then l[j]? else l[k]? := by
  unfold swap
  rw [List.getElem?_eq_getElem hi, List.getElem?_eq_getElem hj]
  rcases eq_or_ne k j with hkj | hkj
  · subst hkj
    rw [if_pos rfl, List.getElem?_set, if_pos rfl]
    simp [List.length_set, hj, List.getElem?_eq_getElem hi]
  · rcases eq_or_ne k i with hki | hki
    · subst hki
      rw [if_neg hkj, if_pos rfl, List.getElem?_set, if_neg (Ne.symm hkj),
        List.getElem?_set, if_pos rfl]
      simp [hi, List.getElem?_eq_getElem hj]
    · rw [if_neg hkj, if_neg hki, List.getElem?_set, if_neg (Ne.symm hkj),
        List.getElem?_set, if_neg (Ne.symm hki)]

theorem get_cons_set_perm {β : Type} :
    ∀ (t : List β) (k : Nat) (h : k < t.length) (a : β),
      List.Perm (t[k] :: t.set k a) (a :: t)
  | b :: t, 0, _, a => by
    simpa using List.Perm.swap a b t
  | b :: t, k + 1, h, a => by
    have hk : k < t.length := by
      simpa using Nat.lt_of_succ_lt_succ h
    simp only [List.getElem_cons_succ, List.set_cons_succ]
    exact ((List.Perm.swap b (t[k]) (t.set k a)).trans
      (List.Perm.cons b (get_cons_set_perm t k hk a))).trans (List.Perm.swap a b t)

theorem swap_perm {α : Type} (l : List (Item α)) (i j : Nat) :
    List.Perm (swap l i j) l := by
  unfold swap
  cases hi : l[i]? with
  | none => exact List.Perm.refl l
  | some a =>
    cases hj : l[j]? with
    | none => exact List.Perm.refl l
    | some b =>
      obtain ⟨hil, hie⟩ := List.getElem?_eq_some.mp hi
      obtain ⟨hjl, hje⟩ := List.getElem?_eq_some.mp hj
      have hjl1 : j < (l.set i b).length := by simpa using hjl
      have hb : (l.set i b)[j] = b := by
        by_cases hij : i = j
        · subst hij; simp [List.getElem_set_self, hjl]
        · rw [List.getElem_set_ne hij]; exact hje
      have h1 : List.Perm ((l.set i b)[j] :: (l.set i b).set j a) (a :: l.set i b) :=
        get_cons_set_perm (l.set i b) j hjl1 a
      rw [hb] at h1
      have h2 : List.Perm (l[i] :: l.set i b) (b :: l) := get_cons_set_perm l i hil b
      rw [hie] at h2
      exact List.Perm.cons_inv (h1.trans h2)

/-! ## Heap lemmas: `leAt` / `lessAt` transport -/

theorem leAt_iff {α : Type} {l : List (Item α)} {i j : Nat} :
    leAt l i j = true ↔
      ∀ p c, l[i]? = some p → l[j]? = some c → p.priority ≤ c.priority := by
  unfold leAt
  cases hi : l[i]? <;> cases hj : l[j]? <;> simp

theorem lessAt_iff {α : Type} {l : List (Item α)} {i j : Nat} :
    lessAt l i j = true ↔
      ∃ a b, l[i]? = some a ∧ l[j]? = some b ∧ a.priority < b.priority := by
  unfold lessAt
  cases hi : l[i]? <;> cases hj : l[j]? <;> simp

theorem lessAt_le {α : Type} {l : List (Item α)} {i j : Nat}
    (h : lessAt l i j = true) : leAt l i j = true := by
  obtain ⟨a, b, ha, hb, hab⟩ := lessAt_iff.mp h
  rw [leAt_iff]
  intro p c hp hc
  rw [ha] at hp
  rw [hb] at hc
  cases hp
  cases hc
  omega

theorem lessAt_false_le {α : Type} {l : List (Item α)} {i j : Nat}
    (hi : i < l.length) (hj : j < l.length) (h : lessAt l i j = false) :
    leAt l j i = true := by
  rw [leAt_iff]
  intro p c hp hc
  unfold lessAt at h
  rw [hp, hc] at h
  simp at h
  omega

theorem leAt_congr {α : Type} {l m : List (Item α)} {i j : Nat}
    (hi : m[i]? = l[i]?) (hj : m[j]? = l[j]?) : leAt m i j = leAt l i j := by
  unfold leAt
  rw [hi, hj]

theorem leAt_trans {α : Type} {l : List (Item α)} {i j k : Nat}
    (hj : j < l.length) (h1 : leAt l i j = true) (h2 : leAt l j k = true) :
    leAt l i k = true := by
  rw [leAt_iff] at h1 h2 ⊢
  intro p c hp hc
  have hjs : l[j]? = some (l[j]) := List.getElem?_eq_getElem hj
  exact le_trans (h1 p (l[j]) hp hjs) (h2 (l[j]) c hjs hc)

/-! ## Heap lemmas: `up` -/

theorem up_length {α : Type} (j : Nat) (l : List (Item α)) :
    (up l j).length = l.length := by
  induction j using Nat.strong_induction_on generalizing l with
  | _ j ih =>
    rw [up_eq]
    split
    · rfl
    · split
      · rw [ih ((j - 1) / 2) (by omega), swap_length]
      · rfl

theorem up_perm {α : Type} (j : Nat) (l : List (Item α)) :
    List.Perm (up l j) l := by
  induction j using Nat.strong_induction_on generalizing l with
  | _ j ih =>
    rw [up_eq]
    split
    · exact List.Perm.refl l
    · split
      · exact (ih ((j - 1) / 2) (by omega) _).trans (swap_perm l ((j - 1) / 2) j)
      · exact List.Perm.refl l

theorem up_step {α : Type} {l : List (Item α)} {j : Nat}
    (hj : j < l.length) (h0 : j ≠ 0)
    (hless : lessAt l j ((j - 1) / 2) = true) (hx : HeapExceptUp l j) :
    HeapExceptUp (swap l ((j - 1) / 2) j) ((j - 1) / 2) := by
  obtain ⟨a, b, hja, hib, hab⟩ := lessAt_iff.mp hless
  have hil : (j - 1) / 2 < l.length := by omega
  have hswap := getElem?_swap hil hj
  constructor
  · intro k hk hk0 hki
    rw [swap_length] at hk
    rw [leAt_iff]
    intro p c hp hc
    rw [hswap] at hp hc
    rcases eq_or_ne k j with hkj | hkj
    · subst hkj
      rw [if_pos rfl] at hc
      rw [if_neg (by omega), if_pos rfl] at hp
      rw [hja] at hp
      rw [hib] at hc
      cases hp
      cases hc
      omega
    · rw [if_neg hkj, if_neg hki] at hc
      rcases eq_or_ne ((k - 1) / 2) j with hmj | hmj
      · rw [if_pos hmj] at hp
        have h2 := hx.2 (by omega) k hk hmj
        rw [leAt_iff] at h2
        exact h2 p c hp hc
      · rcases eq_or_ne ((k - 1) / 2) ((j - 1) / 2) with hmi | hmi
        · rw [if_neg hmj, if_pos hmi] at hp
          have h1 := hx.1 k hk hk0 hkj
          rw [hmi, leAt_iff] at h1
          have hbc := h1 b c hib hc
          rw [hja] at hp
          cases hp
          omega
        · rw [if_neg hmj, if_neg hmi] at hp
          have h1 := hx.1 k hk hk0 hkj
          rw [leAt_iff] at h1
          exact h1 p c hp hc
  · intro hi0 k hk hki
    rw [swap_length] at hk
    have hgj : ((j - 1) / 2 - 1) / 2 ≠ j := by omega
    have hgi : ((j - 1) / 2 - 1) / 2 ≠ (j - 1) / 2 := by omega
    rw [leAt_iff]
    intro p c hp hc
    rw [hswap] at hp hc
    rw [if_neg hgj, if_neg hgi] at hp
    have h1 := hx.1 ((j - 1) / 2) hil hi0 (by omega)
    rw [leAt_iff] at h1
    have hpb := h1 p b hp hib
    rcases eq_or_ne k j with hkj | hkj
    · subst hkj
      rw [if_pos rfl] at hc
      rw [hib] at hc
      cases hc
      exact hpb
    · rw [if_neg hkj, if_neg (by omega)] at hc
      have h2 := hx.1 k hk (by omega) hkj
      rw [hki, leAt_iff] at h2
      have hbc := h2 b c hib hc
      omega

theorem up_heap {α : Type} (j : Nat) (l : List (Item α))
    (hj : j < l.length) (hx : HeapExceptUp l j) : IsHeap (up l j) := by
  induction j using Nat.strong_induction_on generalizing l with
  | _ j ih =>
    rw [up_eq]
    split
    case isTrue h0 =>
      subst h0
      intro k hk hk0
      exact hx.1 k hk hk0 (by omega)
    case isFalse h0 =>
      split
      case isTrue hless =>
        exact ih ((j - 1) / 2) (by omega) _ (by rw [swap_length]; omega)
          (up_step hj h0 hless hx)
      case isFalse hless =>
        intro k hk hk0
        rcases eq_or_ne k j with hkj | hkj
        · subst hkj
          exact lessAt_false_le hk (by omega) (by simpa using hless)
        · exact hx.1 k hk hk0 hkj

theorem heapPush_isHeap {α : Type} (l : List (Item α)) (x : Item α)
    (h : IsHeap l) : IsHeap (heapPushGo l x) := by
  apply up_heap l.length (l ++ [x]) (by simp)
  constructor
  · intro k hk hk0 hkj
    have hk2 : k < l.length := by
      simp only [List.length_append, List.length_cons, List.length_nil] at hk
      omega
    have e1 : (l ++ [x])[k]? = l[k]? := by
      rw [List.getElem?_append, if_pos hk2]
    have e2 : (l ++ [x])[(k - 1) / 2]? = l[(k - 1) / 2]? := by
      rw [List.getElem?_append, if_pos (by omega)]
    rw [leAt_congr e2 e1]
    exact h k hk2 hk0
  · intro h0 k hk hkc
    simp only [List.length_append, List.length_cons, List.length_nil] at hk
    omega

theorem heapPush_length {α : Type} (l : List (Item α)) (x : Item α) :
    (heapPushGo l x).length = l.length + 1 := by
  unfold heapPushGo
  rw [up_length]
  simp

theorem heapPush_perm {α : Type} (l : List (Item α)) (x : Item α) :
    List.Perm (heapPushGo l x) (x :: l) := by
  exact (up_perm _ _).trans (List.perm_append_singleton x l)

/-! ## Heap lemmas: the root is minimal -/

theorem root_le_getElem {α : Type} {l : List (Item α)} (hh : IsHeap l) {r : Item α}
    (hr : l[0]? = some r) :
    ∀ (k : Nat) (y : Item α), l[k]? = some y → r.priority ≤ y.priority := by
  intro k
  induction k using Nat.strong_induction_on with
  | _ k ih =>
    intro y hy
    rcases Nat.eq_zero_or_pos k with hk0 | hk0
    · subst hk0
      rw [hr] at hy
      cases hy
      omega
    · have hkl : k < l.length := (List.getElem?_eq_some.mp hy).1
      have hpl : (k - 1) / 2 < l.length := by omega
      have hp : l[(k - 1) / 2]? = some (l[(k - 1) / 2]) := List.getElem?_eq_getElem hpl
      have h1 := ih ((k - 1) / 2) (by omega) _ hp
      have h2 := hh k hkl hk0
      rw [leAt_iff] at h2
      exact le_trans h1 (h2 _ y hp hy)

theorem root_le_mem {α : Type} {l : List (Item α)} (hh : IsHeap l) {r : Item α}
    (hr : l[0]? = some r) : ∀ y ∈ l, r.priority ≤ y.priority := by
  intro y hy
  obtain ⟨k, hk⟩ := List.mem_iff_getElem?.mp hy
  exact root_le_getElem hh hr k y hk

/-! ## Heap lemmas: `down` -/

theorem getElem?_swap_ne {α : Type} {l : List (Item α)} {i j k : Nat}
    (hki : k ≠ i) (hkj : k ≠ j) : (swap l i j)[k]? = l[k]? := by
  unfold swap
  cases hi : l[i]? with
  | none => cases hj : l[j]? <;> rfl
  | some a =>
    cases hj : l[j]? with
    | none => rfl
    | some b => rw [List.getElem?_set_ne (Ne.symm hkj), List.getElem?_set_ne (Ne.symm hki)]

theorem downChild_min {α : Type} {l : List (Item α)} {i n : Nat} (hn : n ≤ l.length)
    (h1 : ¬ n ≤ 2 * i + 1) :
    ∀ k, k < n → 0 < k → (k - 1) / 2 = i → k ≠ downChild l i n →
      leAt l (downChild l i n) k = true := by
  intro k hk hk0 hki hkd
  by_cases hc : 2 * i + 2 < n ∧ lessAt l (2 * i + 2) (2 * i + 1) = true
  · have hdc : downChild l i n = 2 * i + 2 := by unfold downChild; rw [if_pos hc]
    rw [hdc] at hkd ⊢
    have hk1 : k = 2 * i + 1 := by omega
    subst hk1
    exact lessAt_le hc.2
  · have hdc : downChild l i n = 2 * i + 1 := by unfold downChild; rw [if_neg hc]
    rw [hdc] at hkd ⊢
    have hk2 : k = 2 * i + 2 := by omega
    subst hk2
    have hless : lessAt l (2 * i + 2) (2 * i + 1) = false := by
      rcases Bool.eq_false_or_eq_true (lessAt l (2 * i + 2) (2 * i + 1)) with hb | hb
      · exact absurd ⟨by omega, hb⟩ hc
      · exact hb
    have hb1 : 2 * i + 2 < l.length := by omega
    have hb2 : 2 * i + 1 < l.length := by omega
    exact lessAt_false_le hb1 hb2 hless

theorem down_length {α : Type} (l : List (Item α)) (i n : Nat) :
    (down l i n).length = l.length := by
  rw [down_eq]
  split
  · rfl
  · split
    · rw [down_length (swap l i (downChild l i n)) (downChild l i n) n, swap_length]
    · rfl
termination_by n - i
decreasing_by
  simp only [downChild]
  split <;> omega

theorem down_perm {α : Type} (l : List (Item α)) (i n : Nat) :
    List.Perm (down l i n) l := by
  rw [down_eq]
  split
  · exact List.Perm.refl l
  · split
    · exact (down_perm (swap l i (downChild l i n)) (downChild l i n) n).trans
        (swap_perm l i (downChild l i n))
    · exact List.Perm.refl l
termination_by n - i
decreasing_by
  simp only [downChild]
  split <;> omega

theorem down_untouched {α : Type} (l : List (Item α)) (i n : Nat) (hin : i < n) :
    ∀ k, n ≤ k → (down l i n)[k]? = l[k]? := by
  intro k hk
  rw [down_eq]
  split
  · rfl
  case isFalse h1 =>
    split
    · rw [down_untouched (swap l i (downChild l i n)) (downChild l i n) n
        (downChild_lt h1) k hk,
        getElem?_swap_ne (by omega) (by have := downChild_lt (l := l) (i := i) h1; omega)]
    · rfl
termination_by n - i
decreasing_by
  simp only [downChild]
  split <;> omega

theorem down_step {α : Type} {l : List (Item α)} {i n : Nat} (hn : n ≤ l.length)
    (h1 : ¬ n ≤ 2 * i + 1)
    (hless : lessAt l (downChild l i n) i = true)
    (hx : HeapExceptDown l n i) :
    HeapExceptDown (swap l i (downChild l i n)) n (downChild l i n) := by
  obtain ⟨a, b, hja, hia, hab⟩ := lessAt_iff.mp hless
  have hjlt : downChild l i n < n := downChild_lt h1
  have hjgt : i < downChild l i n := downChild_gt
  have hjpar : (downChild l i n - 1) / 2 = i := downChild_parent
  have hswap := getElem?_swap (i := i) (j := downChild l i n)
    (by omega) (by omega) (l := l)
  constructor
  · intro k hk hk0 hkj
    rw [leAt_iff]
    intro p c hp hc
    rw [hswap] at hp hc
    rcases eq_or_ne k (downChild l i n) with hkd | hkd
    · -- the pair (i, j) itself, now in order after the swap
      subst hkd
      rw [if_pos rfl, hia] at hc
      cases hc
      rw [hjpar] at hp
      rw [if_neg (by omega), if_pos rfl, hja] at hp
      cases hp
      omega
    · rcases eq_or_ne k i with hki | hki
      · -- pair (parent of i, i): the slot i now holds the old minimum child
        rw [hki] at hc hp hk0
        rw [if_neg (by omega), if_pos rfl, hja] at hc
        cases hc
        rw [if_neg (by omega), if_neg (by omega)] at hp
        have h2 := hx.2 hk0 (downChild l i n) hjlt hjpar
        rw [leAt_iff] at h2
        exact h2 p a hp hja
      · rw [if_neg hkd, if_neg hki] at hc
        rcases eq_or_ne ((k - 1) / 2) i with hmi | hmi
        · -- k is the sibling of j: slot i now holds the minimum child's element
          rw [if_neg (by omega), if_pos hmi, hja] at hp
          cases hp
          have hmin := downChild_min hn h1 k hk hk0 hmi hkd
          rw [leAt_iff] at hmin
          exact hmin a c hja hc
        · -- untouched pair
          have hmj : (k - 1) / 2 ≠ downChild l i n := by
            intro he
            exact hkj (by rw [he])
          rw [if_neg hmj, if_neg hmi] at hp
          have hold := hx.1 k hk hk0 hmi
          rw [leAt_iff] at hold
          exact hold p c hp hc
  · intro hj0 k hk hkj
    rw [hjpar, leAt_iff]
    intro p c hp hc
    rw [hswap] at hp hc
    rw [if_neg (by omega), if_pos rfl, hja] at hp
    cases hp
    have hkgt : downChild l i n < k := by omega
    rw [if_neg (by omega), if_neg (by omega)] at hc
    have hold := hx.1 k hk (by omega) (by omega)
    rw [hkj, leAt_iff] at hold
    exact hold a c hja hc

theorem down_stop {α : Type} {l : List (Item α)} {i n : Nat} (hn : n ≤ l.length)
    (h1 : ¬ n ≤ 2 * i + 1)
    (hnl : lessAt l (downChild l i n) i = false)
    (hx : HeapExceptDown l n i) : HeapBelow l n := by
  have hjlt : downChild l i n < n := downChild_lt h1
  have hij : leAt l i (downChild l i n) = true :=
    lessAt_false_le (by omega) (by omega) hnl
  intro k hk hk0
  rcases eq_or_ne ((k - 1) / 2) i with hpar | hpar
  · rw [hpar]
    rcases eq_or_ne k (downChild l i n) with hkd | hkd
    · subst hkd
      exact hij
    · exact leAt_trans (by omega) hij (downChild_min hn h1 k hk hk0 hpar hkd)
  · exact hx.1 k hk hk0 hpar

theorem down_heapBelow {α : Type} (l : List (Item α)) (i n : Nat)
    (hn : n ≤ l.length) (hx : HeapExceptDown l n i) :
    HeapBelow (down l i n) n := by
  rw [down_eq]
  split
  case isTrue h1 =>
    intro k hk hk0
    apply hx.1 k hk hk0
    omega
  case isFalse h1 =>
    split
    case isTrue hless =>
      exact down_heapBelow (swap l i (downChild l i n)) (downChild l i n) n
        (by rw [swap_length]; exact hn) (down_step hn h1 hless hx)
    case isFalse hless =>
      exact down_stop hn h1 (by simpa using hless) hx
termination_by n - i
decreasing_by
  simp only [downChild]
  split <;> omega

/-! ## Heap lemmas: `heapPopGo` specification -/

theorem heapPop_spec {α : Type} (l : List (Item α)) (hne : l ≠ []) (hh : IsHeap l) :
    ∃ x rest, heapPopGo l = some (x, rest) ∧
      l[0]? = some x ∧
      rest.length = l.length - 1 ∧ IsHeap rest ∧
      List.Perm l (x :: rest) ∧
      (∀ y ∈ l, x.priority ≤ y.priority) := by
  have hlen : 0 < l.length := List.length_pos.mpr hne
  have hr : l[0]? = some (l[0]) := List.getElem?_eq_getElem hlen
  have hl1len : (swap l 0 (l.length - 1)).length = l.length := swap_length l 0 (l.length - 1)
  have hx : HeapExceptDown (swap l 0 (l.length - 1)) (l.length - 1) 0 := by
    constructor
    · intro k hk hk0 hki
      have e1 : (swap l 0 (l.length - 1))[k]? = l[k]? :=
        getElem?_swap_ne (by omega) (by omega)
      have e2 : (swap l 0 (l.length - 1))[(k - 1) / 2]? = l[(k - 1) / 2]? :=
        getElem?_swap_ne hki (by omega)
      rw [leAt_congr e2 e1]
      exact hh k (by omega) hk0
    · intro h0
      exact absurd h0 (by omega)
  have hbelow : HeapBelow (down (swap l 0 (l.length - 1)) 0 (l.length - 1)) (l.length - 1) :=
    down_heapBelow _ 0 (l.length - 1) (by omega) hx
  have hl2len : (down (swap l 0 (l.length - 1)) 0 (l.length - 1)).length = l.length := by
    rw [down_length, hl1len]
  have hl2n : (down (swap l 0 (l.length - 1)) 0 (l.length - 1))[l.length - 1]? = some (l[0]) := by
    have e0 : (swap l 0 (l.length - 1))[l.length - 1]? = l[0]? := by
      rw [getElem?_swap hlen (by omega) (l.length - 1), if_pos rfl]
    rcases Nat.eq_zero_or_pos (l.length - 1) with h0 | h0
    · rw [h0] at e0 ⊢
      rw [down_eq, if_pos (by omega)]
      rw [e0]
      exact hr
    · rw [down_untouched _ 0 (l.length - 1) h0 (l.length - 1) le_rfl, e0]
      exact hr
  have hl2ne : down (swap l 0 (l.length - 1)) 0 (l.length - 1) ≠ [] := by
    rw [← List.length_pos, hl2len]
    omega
  have hlast : (down (swap l 0 (l.length - 1)) 0 (l.length - 1)).getLast? = some (l[0]) := by
    rw [List.getLast?_eq_getElem?, hl2len]
    exact hl2n
  refine ⟨l[0], (down (swap l 0 (l.length - 1)) 0 (l.length - 1)).dropLast, ?_, hr, ?_, ?_, ?_, ?_⟩
  · unfold heapPopGo
    rw [if_neg (by simpa [List.isEmpty_iff] using hne)]
    simp only [hlast]
  · rw [List.length_dropLast, hl2len]
  · intro k hk hk0
    rw [List.length_dropLast, hl2len] at hk
    have e1 : (down (swap l 0 (l.length - 1)) 0 (l.length - 1)).dropLast[k]?
        = (down (swap l 0 (l.length - 1)) 0 (l.length - 1))[k]? := by
      rw [List.getElem?_dropLast, if_pos (by omega)]
    have e2 : (down (swap l 0 (l.length - 1)) 0 (l.length - 1)).dropLast[(k - 1) / 2]?
        = (down (swap l 0 (l.length - 1)) 0 (l.length - 1))[(k - 1) / 2]? := by
      rw [List.getElem?_dropLast, if_pos (by omega)]
    rw [leAt_congr e2 e1]
    exact hbelow k (by omega) hk0
  · have hperm : List.Perm (down (swap l 0 (l.length - 1)) 0 (l.length - 1)) l :=
      (down_perm _ 0 (l.length - 1)).trans (swap_perm l 0 (l.length - 1))
    have hgl : (down (swap l 0 (l.length - 1)) 0 (l.length - 1)).getLast hl2ne = l[0] := by
      have := List.getLast?_eq_getLast _ hl2ne
      rw [hlast] at this
      exact (Option.some.inj this).symm
    have hsplit : (down (swap l 0 (l.length - 1)) 0 (l.length - 1)).dropLast ++ [l[0]]
        = down (swap l 0 (l.length - 1)) 0 (l.length - 1) := by
      rw [← hgl]
      exact List.dropLast_append_getLast hl2ne
    have h5 : List.Perm l
        ((down (swap l 0 (l.length - 1)) 0 (l.length - 1)).dropLast ++ [l[0]]) := by
      rw [hsplit]
      exact hperm.symm
    exact h5.trans (List.perm_append_singleton _ _)
  · exact root_le_mem hh hr

/-! ## Queue-level lemmas -/

theorem push_isHeap {α : Type} (q : PriorityQueue α) (v : α) (r : Int)
    (h : IsHeap q.heapList) : IsHeap (q.Push v r).heapList :=
  heapPush_isHeap q.heapList ⟨v, r⟩ h

theorem pushAll_isHeap {α : Type} (ps : List (α × Int)) :
    ∀ (q : PriorityQueue α), IsHeap q.heapList → IsHeap (q.pushAll ps).heapList := by
  induction ps with
  | nil => intro q h; exact h
  | cons p ps ih =>
    intro q h
    exact ih (q.Push p.1 p.2) (push_isHeap q p.1 p.2 h)

theorem new_isHeap (α : Type) : IsHeap (PriorityQueue.new α).heapList := by
  intro k hk hk0
  simp [PriorityQueue.new] at hk

theorem pop_spec_empty {α : Type} (q : PriorityQueue α) (h : q.Len = 0) :
    q.Pop = ((none, 0, false), q) := by
  unfold PriorityQueue.Pop
  have h2 : q.heapList.length = 0 := h
  rw [if_pos h2]

theorem pop_spec_nonempty {α : Type} (q : PriorityQueue α)
    (hh : IsHeap q.heapList) (h : 0 < q.Len) :
    ∃ v r q2, q.Pop = ((some v, r, true), q2) ∧
      q2.Len = q.Len - 1 ∧
      (∀ it ∈ q.heapList, r ≤ it.priority) ∧
      List.Perm q.heapList (⟨v, r⟩ :: q2.heapList) ∧
      IsHeap q2.heapList := by
  have hne : q.heapList ≠ [] := by
    rw [← List.length_pos]
    exact h
  obtain ⟨x, rest, hpop, hx0, hlen, hheap, hperm, hmin⟩ := heapPop_spec q.heapList hne hh
  refine ⟨x.value, x.priority, ⟨rest⟩, ?_, hlen, hmin, ?_, hheap⟩
  · unfold PriorityQueue.Pop
    have h2 : 0 < q.heapList.length := h
    rw [if_neg (by omega)]
    simp only [hpop]
  · exact hperm

theorem drainAux_spec {α : Type} (fuel : Nat) :
    ∀ (q : PriorityQueue α), IsHeap q.heapList →
      List.Chain' (fun a b => a.2 ≤ b.2) (drainAux fuel q)
      ∧ (∀ p ∈ drainAux fuel q, ∃ it ∈ q.heapList, it.value = p.1 ∧ it.priority = p.2)
      ∧ (q.Len ≤ fuel → (drainAux fuel q).length = q.Len) := by
  induction fuel with
  | zero =>
    intro q hh
    refine ⟨List.chain'_nil, ?_, ?_⟩
    · intro p hp
      simp [drainAux] at hp
    · intro hl
      simp only [drainAux, List.length_nil]
      omega
  | succ fuel ih =>
    intro q hh
    rcases Nat.eq_zero_or_pos q.Len with h0 | h0
    · have he := pop_spec_empty q h0
      have hred : drainAux (fuel + 1) q = [] := by
        unfold drainAux
        rw [he]
      rw [hred]
      refine ⟨List.chain'_nil, by simp, ?_⟩
      intro _
      simp [h0]
    · obtain ⟨v, r, q2, hpop, hlen, hmin, hperm, hheap2⟩ := pop_spec_nonempty q hh h0
      have hred : drainAux (fuel + 1) q = (v, r) :: drainAux fuel q2 := by
        simp only [drainAux]
        rw [hpop]
      obtain ⟨ihc, ihm, ihl⟩ := ih q2 hheap2
      have hmem : ∀ p ∈ drainAux (fuel + 1) q,
          ∃ it ∈ q.heapList, it.value = p.1 ∧ it.priority = p.2 := by
        rw [hred]
        intro p hp
        rcases List.mem_cons.mp hp with hp | hp
        · subst hp
          refine ⟨⟨v, r⟩, ?_, rfl, rfl⟩
          exact hperm.mem_iff.mpr (List.mem_cons_self _ _)
        · obtain ⟨it, hit, hv, hr⟩ := ihm p hp
          exact ⟨it, hperm.mem_iff.mpr (List.mem_cons_of_mem _ hit), hv, hr⟩
      refine ⟨?_, hmem, ?_⟩
      · rw [hred]
        rw [List.chain'_cons']
        constructor
        · intro y hy
          have hy2 := List.mem_of_mem_head? hy
          obtain ⟨it, hit, hv, hr⟩ := ihm y hy2
          have : it ∈ q.heapList := hperm.mem_iff.mpr (List.mem_cons_of_mem _ hit)
          have := hmin it this
          omega
        · exact ihc
      · intro hl
        rw [hred]
        simp only [List.length_cons]
        rw [ihl (by omega)]
        omega

/-! ## Claim C1 -/

/-- C1: for every sequence of `Push` calls on a fresh `PriorityQueue`
followed by repeated `Pop` calls until the queue is empty, the
sequence of ranks returned by the pops is non-decreasing (and the
drain really pops every element); in particular, pushing ranks
`[50, 10, 30]` and then calling `Pop` three times returns ranks
`10, 30, 50` in that order. -/
theorem C1_heap_ordering :
    (∀ (α : Type) (ps : List (α × Int)),
      List.Chain' (fun a b : Int => a ≤ b)
        ((((PriorityQueue.new α).pushAll ps).drain).map Prod.snd)
      ∧ (((PriorityQueue.new α).pushAll ps).drain).length
          = ((PriorityQueue.new α).pushAll ps).Len)
    ∧ (((PriorityQueue.new Nat).pushAll [(0, 50), (1, 10), (2, 30)]).drain).map Prod.snd
        = [10, 30, 50] := by
  constructor
  · intro α ps
    have hh := pushAll_isHeap ps (PriorityQueue.new α) (new_isHeap α)
    obtain ⟨hc, hm, hl⟩ := drainAux_spec (((PriorityQueue.new α).pushAll ps).Len)
      ((PriorityQueue.new α).pushAll ps) hh
    constructor
    · rw [List.chain'_map]
      exact hc
    · exact hl le_rfl
  · decide

/-! ## Claim C7 -/

/-- C7: `Pop` on an empty queue returns `(nil, 0, false)` and leaves
the queue unchanged; on a non-empty (heap-invariant) queue it removes
and returns the lowest-rank item, `Len` decreases by exactly one, and
the remaining multiset is the old one minus one copy of the popped
item (so a popped item is never returned by a later `Pop`). -/
theorem C7_pop_exactly_once {α : Type} (q : PriorityQueue α) :
    (q.Len = 0 → q.Pop = ((none, 0, false), q))
    ∧ (IsHeap q.heapList → 0 < q.Len →
        ∃ v r q2, q.Pop = ((some v, r, true), q2)
          ∧ q2.Len = q.Len - 1
          ∧ (∀ it ∈ q.heapList, r ≤ it.priority)
          ∧ List.Perm q.heapList (⟨v, r⟩ :: q2.heapList)
          ∧ IsHeap q2.heapList) :=
  ⟨pop_spec_empty q, fun hh h => pop_spec_nonempty q hh h⟩

/-- Witness for C7 at the empty queue and at the concrete two-element
heap `[(7, 10), (8, 50)]`. -/
theorem C7_pop_exactly_once_witness :
    (PriorityQueue.Pop (PriorityQueue.mk ([] : List (Item Nat)))
      = ((none, 0, false), PriorityQueue.mk []))
    ∧ (∃ v r q2,
        PriorityQueue.Pop (PriorityQueue.mk [Item.mk 7 10, Item.mk 8 50])
            = ((some v, r, true), q2)
          ∧ q2.Len = PriorityQueue.Len (PriorityQueue.mk [Item.mk 7 10, Item.mk 8 50]) - 1
          ∧ (∀ it ∈ (PriorityQueue.mk [Item.mk 7 10, Item.mk 8 50]).heapList,
              r ≤ it.priority)
          ∧ List.Perm (PriorityQueue.mk [Item.mk 7 10, Item.mk 8 50]).heapList
              (Item.mk v r :: q2.heapList)
          ∧ IsHeap q2.heapList) :=
  ⟨(C7_pop_exactly_once (PriorityQueue.mk [])).1 rfl,
   (C7_pop_exactly_once (PriorityQueue.mk [Item.mk 7 10, Item.mk 8 50])).2
     (by decide) (by decide)⟩

/-! ## Claim C2 -/

theorem fetchLoopF_allFail {β : Type} (fetch : Nat → FetchOutcome β)
    (hf : ∀ n (b : β), fetch n ≠ FetchOutcome.ok b) :
    ∀ (fuel i : Nat), fuel + i ≤ 6 →
      fetchLoopF fetch fuel i = ⟨fuel, 1, none⟩ := by
  intro fuel
  induction fuel with
  | zero => intro i _; rfl
  | succ fuel ih =>
    intro i hfi
    simp only [fetchLoopF]
    rw [if_neg (by omega)]
    cases hfetch : fetch i with
    | ok b => exact absurd hfetch (hf i b)
    | err => simp only [ih (i + 1) (by omega)]
    | nilResp => simp only [ih (i + 1) (by omega)]
    | emptyResp => simp only [ih (i + 1) (by omega)]

/-- C2: when the block query service fails (error, `nil`, or empty
response) on every attempt, `handleBlock` makes 6 `GetBlock` calls for
the slot — the initial attempt plus exactly 5 retries — emits exactly
one abandoned-slot log, enqueues nothing into the transaction queue,
and does not re-enqueue the slot into the block queue. -/
theorem C2_retry_bound (fetch : Nat → FetchOutcome (Option (List BlockTx)))
    (slot : Nat) (hf : ∀ n b, fetch n ≠ FetchOutcome.ok b) :
    handleBlockM fetch slot
        = { fetchCalls := 6, abandonLogs := 1, txQueuePushes := [], blockQueuePushes := [] }
    ∧ (handleBlockM fetch slot).fetchCalls - 1 = 5 := by
  have h : fetchLoop fetch 0 = ⟨6, 1, none⟩ :=
    fetchLoopF_allFail fetch hf (6 - 0) 0 (by omega)
  unfold handleBlockM
  rw [h]
  exact ⟨rfl, rfl⟩

/-- Witness for C2: the constantly-failing service at slot 123. -/
theorem C2_retry_bound_witness :
    handleBlockM (fun _ => FetchOutcome.err) 123
        = { fetchCalls := 6, abandonLogs := 1, txQueuePushes := [], blockQueuePushes := [] }
    ∧ (handleBlockM (fun _ => FetchOutcome.err) 123).fetchCalls - 1 = 5 :=
  C2_retry_bound (fun _ => FetchOutcome.err) 123
    (fun _ b h => FetchOutcome.noConfusion h)

/-! ## Claim C3 -/

theorem isEmpty_false_of_length {α : Type} {l : List α} (h : 0 < l.length) :
    l.isEmpty = false := by
  cases l <;> simp_all

theorem chunkListF_cons {α : Type} (n fuel : Nat) (l : List α)
    (hne : l.isEmpty = false) (hn : n ≠ 0) :
    chunkListF n (fuel + 1) l = l.take n :: chunkListF n fuel (l.drop n) := by
  simp only [chunkListF]
  rw [if_neg (by simp [hne, hn])]

theorem chunkListF_done {α : Type} (n fuel : Nat) (l : List α)
    (h : l.isEmpty = true ∨ n = 0) : chunkListF n fuel l = [] := by
  cases fuel with
  | zero => rfl
  | succ fuel =>
    simp only [chunkListF]
    rw [if_pos h]

/-- C3: a popped `TransactionBatch` of 120 signatures is split by
`slices.Chunk(sigs, 50)` into exactly 3 sub-batches of sizes 50, 50
and 20 whose concatenation is the original signature list (signature
order preserved), and the `i`-th dispatched sub-batch goes to client
index `i % clientCount` in round-robin order from index 0 (the loop
counter starts at 0 each cycle). -/
theorem C3_batch_splitting (cc : Nat) (batch : TransactionQueueModel)
    (hcc : 0 < cc) (hlen : batch.signatures.length = 120) :
    processTransactionCycle cc batch
        = [(0 % cc, batch.signatures.take 50),
           (1 % cc, (batch.signatures.drop 50).take 50),
           (2 % cc, (batch.signatures.drop 50).drop 50)]
      ∧ (batch.signatures.take 50).length = 50
      ∧ ((batch.signatures.drop 50).take 50).length = 50
      ∧ ((batch.signatures.drop 50).drop 50).length = 20
      ∧ batch.signatures.take 50 ++ ((batch.signatures.drop 50).take 50
          ++ (batch.signatures.drop 50).drop 50) = batch.signatures := by
  have hl1 : (batch.signatures.drop 50).length = 70 := by
    rw [List.length_drop, hlen]
  have hl2 : ((batch.signatures.drop 50).drop 50).length = 20 := by
    rw [List.length_drop, hl1]
  have hl3 : (((batch.signatures.drop 50).drop 50).drop 50).length = 0 := by
    rw [List.length_drop, hl2]
  have hchunk : chunkList 50 batch.signatures
      = [batch.signatures.take 50, (batch.signatures.drop 50).take 50,
         ((batch.signatures.drop 50).drop 50).take 50] := by
    unfold chunkList
    rw [hlen]
    rw [show (120 : Nat) = 119 + 1 from rfl,
      chunkListF_cons 50 119 _ (isEmpty_false_of_length (by omega)) (by omega)]
    rw [show (119 : Nat) = 118 + 1 from rfl,
      chunkListF_cons 50 118 _ (isEmpty_false_of_length (by omega)) (by omega)]
    rw [show (118 : Nat) = 117 + 1 from rfl,
      chunkListF_cons 50 117 _ (isEmpty_false_of_length (by omega)) (by omega)]
    rw [chunkListF_done 50 117 _ (Or.inl (by rw [List.isEmpty_iff, ← List.length_eq_zero]; exact hl3))]
  have htk : ((batch.signatures.drop 50).drop 50).take 50
      = (batch.signatures.drop 50).drop 50 :=
    List.take_of_length_le (by omega)
  refine ⟨?_, ?_, ?_, hl2, ?_⟩
  · unfold processTransactionCycle
    rw [hchunk, htk]
    rfl
  · rw [List.length_take, hlen]
    omega
  · rw [List.length_take, hl1]
    omega
  · rw [List.take_append_drop, List.take_append_drop]

/-- Witness for C3: 120 placeholder signatures over a two-credential
pool; the three chunks go to clients 0, 1, 0. -/
theorem C3_batch_splitting_witness :
    processTransactionCycle 2 ⟨List.replicate 120 "s", 7⟩
        = [(0 % 2, (List.replicate 120 "s").take 50),
           (1 % 2, ((List.replicate 120 "s").drop 50).take 50),
           (2 % 2, ((List.replicate 120 "s").drop 50).drop 50)]
      ∧ ((List.replicate 120 "s").take 50).length = 50
      ∧ (((List.replicate 120 "s").drop 50).take 50).length = 50
      ∧ (((List.replicate 120 "s").drop 50).drop 50).length = 20
      ∧ (List.replicate 120 "s").take 50 ++ (((List.replicate 120 "s").drop 50).take 50
          ++ ((List.replicate 120 "s").drop 50).drop 50) = List.replicate 120 "s" :=
  C3_batch_splitting 2 ⟨List.replicate 120 "s", 7⟩ (by omega) (by simp)

/-! ## Claim C5 -/

theorem collectTrans_eq_filter (txs : List BlockTx) :
    collectTrans txs = txs.filter (fun t => !isVoteTx t && !txFailed t) := by
  induction txs with
  | nil => rfl
  | cons t ts ih =>
    simp only [collectTrans, List.filter]
    by_cases hv : isVoteTx t
    · rw [if_pos hv]
      simp [hv, ih]
    · by_cases hf : txFailed t
      · rw [if_neg hv, if_pos hf]
        simp [hv, hf, ih]
      · rw [if_neg hv, if_neg hf]
        simp [hv, hf, ih]

/-- C5: after a successful fetch-and-parse, exactly the transactions
that are neither vote transactions (some log message contains the vote
marker program) nor on-chain failures (non-null, non-empty instruction
error) contribute their signatures, in block order; a non-empty
signature list yields exactly one push of a `TransactionQueueModel`
with rank `slot`; an empty one yields no push (and the handler just
logs — there is no error path). -/
theorem C5_fanout_filter (slot : Nat) (txs : List BlockTx) :
    (∀ t : BlockTx,
      (isVoteTx t = true ↔ ∃ m ∈ t.meta.logMessages, strContains m voteMarker = true)
      ∧ (txFailed t = true ↔
          ∃ le, t.meta.status.err.instructionError = some le ∧ 0 < le.length))
    ∧ (0 < ((txs.filter (fun t => !isVoteTx t && !txFailed t)).flatMap
          (fun t => t.transaction.signatures)).length →
        handleBlockFanout slot txs
          = [(⟨(txs.filter (fun t => !isVoteTx t && !txFailed t)).flatMap
                (fun t => t.transaction.signatures), slot⟩, Int.ofNat slot)])
    ∧ (((txs.filter (fun t => !isVoteTx t && !txFailed t)).flatMap
          (fun t => t.transaction.signatures)).length = 0 →
        handleBlockFanout slot txs = [])
    ∧ (∀ fetch, (fetchLoop fetch 0).result = some (some txs) →
        (handleBlockM fetch slot).txQueuePushes = handleBlockFanout slot txs
        ∧ (handleBlockM fetch slot).blockQueuePushes = []) := by
  refine ⟨?_, ?_, ?_, ?_⟩
  · intro t
    constructor
    · exact List.any_eq_true
    · unfold txFailed
      constructor
      · intro h
        cases he : t.meta.status.err.instructionError with
        | none => rw [he] at h; cases h
        | some le =>
          rw [he] at h
          simp at h
          exact ⟨le, rfl, h⟩
      · rintro ⟨le, he, hl⟩
        rw [he]
        simpa using hl
  · intro h
    unfold handleBlockFanout
    rw [collectTrans_eq_filter]
    rw [if_pos h]
  · intro h
    unfold handleBlockFanout
    rw [collectTrans_eq_filter]
    rw [if_neg (by omega)]
  · intro fetch hres
    unfold handleBlockM handleBlockOf
    rw [hres]
    exact ⟨rfl, rfl⟩

/-- Witness for C5: one vote transaction, one failed transaction, one
good transaction; only the good one's signature is enqueued, with rank
equal to the slot. -/
theorem C5_fanout_filter_witness :
    (isVoteTx (BlockTx.mk (TxMeta.mk ["Program Vote111111111111111111111111111111111111111 invoke"]
          (TxStatus.mk (ErrInfo.mk none))) (TxInner.mk ["sv"])) = true
      ↔ ∃ m ∈ ["Program Vote111111111111111111111111111111111111111 invoke"],
          strContains m voteMarker = true)
    ∧ (handleBlockFanout 42
        [BlockTx.mk (TxMeta.mk ["Program Vote111111111111111111111111111111111111111 invoke"]
            (TxStatus.mk (ErrInfo.mk none))) (TxInner.mk ["sv"]),
         BlockTx.mk (TxMeta.mk ["ok"] (TxStatus.mk (ErrInfo.mk (some [()])))) (TxInner.mk ["sf"]),
         BlockTx.mk (TxMeta.mk ["ok"] (TxStatus.mk (ErrInfo.mk none))) (TxInner.mk ["sg"])]
        = [(⟨["sg"], 42⟩, Int.ofNat 42)])
    ∧ handleBlockFanout 42
        [BlockTx.mk (TxMeta.mk ["Program Vote111111111111111111111111111111111111111 invoke"]
            (TxStatus.mk (ErrInfo.mk none))) (TxInner.mk ["sv"])] = [] := by
  refine ⟨((C5_fanout_filter 42 []).1 _).1, ?_, ?_⟩
  · have h := (C5_fanout_filter 42
      [BlockTx.mk (TxMeta.mk ["Program Vote111111111111111111111111111111111111111 invoke"]
          (TxStatus.mk (ErrInfo.mk none))) (TxInner.mk ["sv"]),
       BlockTx.mk (TxMeta.mk ["ok"] (TxStatus.mk (ErrInfo.mk (some [()])))) (TxInner.mk ["sf"]),
       BlockTx.mk (TxMeta.mk ["ok"] (TxStatus.mk (ErrInfo.mk none))) (TxInner.mk ["sg"])]).2.1
      (by decide)
    rw [h]
    decide
  · exact (C5_fanout_filter 42 _).2.2.1 (by decide)

/-! ## Claim C6 -/

/-- Counterexample to C6 as stated: a `ParsedTransaction` of a type of
interest whose `transactionError` is non-nil and whose
`instructionError` is non-null but EMPTY (`some []`, a non-null empty
JSON array) is persisted: the skip test requires `len(...) > 0`, so a
non-null instruction error alone does not prevent persistence. -/
theorem C6_counterexample :
    (ParsedTransaction.mk "TRANSFER" "SRC" "SIG"
        (some (TransactionErrorGo.mk "e" (some [])))).transactionError
      = some (TransactionErrorGo.mk "e" (some []))
    ∧ (TransactionErrorGo.mk "e" (some [])).instructionError ≠ none
    ∧ persistTx (ParsedTransaction.mk "TRANSFER" "SRC" "SIG"
        (some (TransactionErrorGo.mk "e" (some []))))
      = [StoreHashCall.mk "SRC" "SRC" "TRANSFER" 0,
         StoreHashCall.mk "SRC_TRANSFER" "SIG" "TRANSFER" 0] := by
  refine ⟨rfl, by simp, by decide⟩

/-- C6 (amended): a `ParsedTransaction` carrying a non-null AND
non-empty instruction error is never persisted, regardless of its
type; and a transaction is persisted — the per-source marker and the
per-(source, type) record keyed by signature, both with ttl 0 — only
when its classified type is in `NeedToParseTransactionType`. -/
theorem C6_drop_on_error (t : ParsedTransaction) :
    (hasNonEmptyInstructionError t = true → persistTx t = [])
    ∧ (hasNonEmptyInstructionError t = true ↔
        ∃ te l, t.transactionError = some te ∧ te.instructionError = some l ∧ 0 < l.length)
    ∧ (persistTx t ≠ [] →
        NeedToParseTransactionType.contains t.ttype = true
        ∧ persistTx t = [⟨t.source, t.source, t.ttype, 0⟩,
            ⟨t.source ++ "_" ++ t.ttype, t.signature, t.ttype, 0⟩]) := by
  refine ⟨?_, ?_, ?_⟩
  · intro h
    unfold persistTx
    rw [if_pos h]
  · unfold hasNonEmptyInstructionError
    cases hte : t.transactionError with
    | none => simp
    | some te =>
      cases hie : te.instructionError with
      | none => simp [hie]
      | some l => simp [hie]
  · intro h
    unfold persistTx at h ⊢
    by_cases he : hasNonEmptyInstructionError t = true
    · rw [if_pos he] at h
      exact absurd rfl h
    · rw [if_neg he] at h ⊢
      by_cases hc : NeedToParseTransactionType.contains t.ttype = true
      · rw [if_pos hc] at h ⊢
        exact ⟨hc, rfl⟩
      · rw [if_neg hc] at h
        exact absurd rfl h

/-- Witness for C6 (amended): a non-empty instruction error is dropped
even for type TRANSFER; a clean TRANSFER is persisted as the two
records. -/
theorem C6_drop_on_error_witness :
    persistTx (ParsedTransaction.mk "TRANSFER" "SRC" "SIG"
        (some (TransactionErrorGo.mk "e" (some [()])))) = []
    ∧ (NeedToParseTransactionType.contains "TRANSFER" = true
      ∧ persistTx (ParsedTransaction.mk "TRANSFER" "SRC" "SIG" none)
          = [⟨"SRC", "SRC", "TRANSFER", 0⟩, ⟨"SRC" ++ "_" ++ "TRANSFER", "SIG", "TRANSFER", 0⟩]) :=
  ⟨(C6_drop_on_error _).1 (by decide),
   (C6_drop_on_error (ParsedTransaction.mk "TRANSFER" "SRC" "SIG" none)).2.2 (by decide)⟩

/-! ## Claim C4 -/

/-- Counterexample to C4 as stated: the Helius `WebSocketClient`'s
`Connect` has no already-connected check.  On a non-closed client that
already holds connection 7, `Connect` performs a dial attempt,
establishes a new transport connection 8 and replaces the stored
connection — it is not a no-op. -/
theorem C4_counterexample :
    (ClientState.mk false true (some 7)).conn = some 7
    ∧ (ClientState.mk false true (some 7)).closed = false
    ∧ wsConnect (ClientState.mk false true (some 7)) (DialOutcome.newConn 8)
        = ClientStepRes.mk (ClientState.mk false true (some 8)) [8] 1 false false := by
  refine ⟨rfl, rfl, by decide⟩

/-- C4 (amended): for both streaming clients, `Connect` after the
client has been closed returns a connection error without dialing;
`Connect` while already connected is an idempotent no-op for the
`PumpPortalClient` only — the Helius `WebSocketClient` dials
unconditionally and, on success, replaces the stored connection. -/
theorem C4_connect_states (s : ClientState) :
    (∀ d, s.closed = true →
      wsConnect s d = ⟨s, [], 0, true, false⟩ ∧ ppConnect s d = ⟨s, [], 0, true, false⟩)
    ∧ (∀ d, s.closed = false → s.conn.isSome = true →
        ppConnect s d = ⟨s, [], 0, false, false⟩)
    ∧ (∀ id, s.closed = false →
        wsConnect s (DialOutcome.newConn id)
          = ⟨{ s with conn := some id }, [id], 1, false, false⟩) := by
  refine ⟨?_, ?_, ?_⟩
  · intro d hc
    unfold wsConnect ppConnect
    rw [hc]
    exact ⟨rfl, rfl⟩
  · intro d hc hconn
    unfold ppConnect
    rw [hc]
    simp only [Bool.false_eq_true, if_false, hconn, if_true]
  · intro id hc
    unfold wsConnect
    rw [hc]
    rfl

/-- Witness for C4 (amended) at concrete closed / connected states. -/
theorem C4_connect_states_witness :
    (wsConnect (ClientState.mk true false none) DialOutcome.failDial
        = ⟨ClientState.mk true false none, [], 0, true, false⟩
      ∧ ppConnect (ClientState.mk true false none) DialOutcome.failDial
        = ⟨ClientState.mk true false none, [], 0, true, false⟩)
    ∧ ppConnect (ClientState.mk false true (some 7)) (DialOutcome.newConn 8)
        = ⟨ClientState.mk false true (some 7), [], 0, false, false⟩
    ∧ wsConnect (ClientState.mk false true (some 7)) (DialOutcome.newConn 8)
        = ⟨{ ClientState.mk false true (some 7) with conn := some 8 }, [8], 1, false, false⟩ :=
  ⟨(C4_connect_states (ClientState.mk true false none)).1 DialOutcome.failDial rfl,
   (C4_connect_states (ClientState.mk false true (some 7))).2.1 (DialOutcome.newConn 8) rfl rfl,
   (C4_connect_states (ClientState.mk false true (some 7))).2.2 8 rfl⟩

/-! ## Claim C8 -/

theorem wsStep_closed (s : ClientState) (hc : s.closed = true) (op : ClientOp) :
    (wsStep s op).state = s ∧ (wsStep s op).dials = []
    ∧ (wsStep s op).scheduledReconnect = false := by
  cases op with
  | connect d =>
    simp only [wsStep]
    unfold wsConnect
    rw [hc]
    exact ⟨rfl, rfl, rfl⟩
  | close =>
    simp only [wsStep]
    unfold clientClose
    rw [hc]
    exact ⟨rfl, rfl, rfl⟩
  | disconnect =>
    simp only [wsStep]
    unfold clientHandleDisconnect
    rw [hc]
    exact ⟨rfl, rfl, rfl⟩

theorem ppStep_closed (s : ClientState) (hc : s.closed = true) (op : ClientOp) :
    (ppStep s op).state = s ∧ (ppStep s op).dials = []
    ∧ (ppStep s op).scheduledReconnect = false := by
  cases op with
  | connect d =>
    simp only [ppStep]
    unfold ppConnect
    rw [hc]
    exact ⟨rfl, rfl, rfl⟩
  | close =>
    simp only [ppStep]
    unfold clientClose
    rw [hc]
    exact ⟨rfl, rfl, rfl⟩
  | disconnect =>
    simp only [ppStep]
    unfold clientHandleDisconnect
    rw [hc]
    exact ⟨rfl, rfl, rfl⟩

theorem runOps_closed (step : ClientState → ClientOp → ClientStepRes)
    (hstep : ∀ s op, s.closed = true →
      (step s op).state = s ∧ (step s op).dials = []) :
    ∀ (ops : List ClientOp) (s : ClientState), s.closed = true →
      runOps step s ops = (s, []) := by
  intro ops
  induction ops with
  | nil => intro s _; rfl
  | cons op ops ih =>
    intro s hc
    obtain ⟨h1, h2⟩ := hstep s op hc
    simp only [runOps]
    rw [h1, ih s hc, h2]
    rfl

/-- C8: `Close` is terminal for both clients: a close from a live
state leaves `closed = true` with reconnection disabled (and a close
on a closed client is a no-op); from a closed state every later
`Connect` fails with an error and no dial, disconnect handling is a
no-op that schedules nothing, and no operation sequence whatsoever
establishes a transport connection or leaves the closed state. -/
theorem C8_close_terminal :
    (∀ s : ClientState, s.closed = false →
      clientClose s = ⟨ClientState.mk true false s.conn, [], 0, false, false⟩)
    ∧ (∀ s : ClientState, s.closed = true → clientClose s = ⟨s, [], 0, false, false⟩)
    ∧ (∀ (s : ClientState) (d : DialOutcome), s.closed = true →
        (wsConnect s d).errored = true ∧ (wsConnect s d).dials = []
        ∧ (ppConnect s d).errored = true ∧ (ppConnect s d).dials = [])
    ∧ (∀ s : ClientState, s.closed = true →
        clientHandleDisconnect s = ⟨s, [], 0, false, false⟩)
    ∧ (∀ (s : ClientState) (ops : List ClientOp), s.closed = true →
        runOps wsStep s ops = (s, []) ∧ runOps ppStep s ops = (s, [])) := by
  refine ⟨?_, ?_, ?_, ?_, ?_⟩
  · intro s hc
    unfold clientClose
    rw [hc]
    rfl
  · intro s hc
    unfold clientClose
    rw [hc]
    rfl
  · intro s d hc
    unfold wsConnect ppConnect
    rw [hc]
    exact ⟨rfl, rfl, rfl, rfl⟩
  · intro s hc
    unfold clientHandleDisconnect
    rw [hc]
    rfl
  · intro s ops hc
    constructor
    · exact runOps_closed wsStep
        (fun s op h => ⟨(wsStep_closed s h op).1, (wsStep_closed s h op).2.1⟩) ops s hc
    · exact runOps_closed ppStep
        (fun s op h => ⟨(ppStep_closed s h op).1, (ppStep_closed s h op).2.1⟩) ops s hc

/-- Witness for C8: closing a live connected client, then running a
connect / disconnect / close sequence from the closed state dials
nothing and stays closed. -/
theorem C8_close_terminal_witness :
    clientClose (ClientState.mk false true (some 3))
        = ⟨ClientState.mk true false (some 3), [], 0, false, false⟩
    ∧ (runOps wsStep (ClientState.mk true false (some 3))
        [ClientOp.connect (DialOutcome.newConn 5), ClientOp.disconnect, ClientOp.close]
        = (ClientState.mk true false (some 3), [])
      ∧ runOps ppStep (ClientState.mk true false (some 3))
        [ClientOp.connect (DialOutcome.newConn 5), ClientOp.disconnect, ClientOp.close]
        = (ClientState.mk true false (some 3), [])) :=
  ⟨C8_close_terminal.1 (ClientState.mk false true (some 3)) rfl,
   C8_close_terminal.2.2.2.2 (ClientState.mk true false (some 3))
     [ClientOp.connect (DialOutcome.newConn 5), ClientOp.disconnect, ClientOp.close] rfl⟩

/-! ## Claim C9 -/

/-- C9: the `subscriptions` map of the Helius `WebSocketClient` only
ever contains the single key `"slotNotification"`: the empty map
satisfies this, every `subscribe` (whatever the method) stores its
handler under that fixed key — overwriting any earlier handler — and
`unsubscribe` only deletes; consequently, under the invariant the read
loop never dispatches a notification whose method is not
`"slotNotification"`. -/
theorem C9_single_subscription_key :
    SubsInv emptySubs
    ∧ (∀ (subs : SubsMap) (op : SubsOp), SubsInv subs → SubsInv (subsStep subs op))
    ∧ (∀ (subs : SubsMap) (ops : List SubsOp), SubsInv subs → SubsInv (subsRun subs ops))
    ∧ (∀ (subs : SubsMap) (m : String) (h : Nat),
        subscribeGo subs m h "slotNotification" = some h)
    ∧ (∀ (subs : SubsMap) (m k : String) (h : Nat), k ≠ "slotNotification" →
        subscribeGo subs m h k = subs k)
    ∧ (∀ (subs : SubsMap) (m : String), SubsInv subs →
        dispatches subs m = true → m = "slotNotification") := by
  have hstep : ∀ (subs : SubsMap) (op : SubsOp), SubsInv subs → SubsInv (subsStep subs op) := by
    intro subs op hinv k hk
    cases op with
    | sub m h =>
      simp only [subsStep, subscribeGo] at hk
      by_cases he : k = "slotNotification"
      · exact he
      · rw [if_neg he] at hk
        exact hinv k hk
    | unsub n =>
      simp only [subsStep, unsubscribeGo] at hk
      by_cases he : k = n
      · rw [if_pos he] at hk
        cases hk
      · rw [if_neg he] at hk
        exact hinv k hk
  refine ⟨?_, hstep, ?_, ?_, ?_, ?_⟩
  · intro k hk
    cases hk
  · intro subs ops
    induction ops generalizing subs with
    | nil => intro h; exact h
    | cons op ops ih =>
      intro h
      exact ih (subsStep subs op) (hstep subs op h)
  · intro subs m h
    unfold subscribeGo
    rw [if_pos rfl]
  · intro subs m k h hk
    unfold subscribeGo
    rw [if_neg hk]
  · intro subs m hinv hd
    unfold dispatches at hd
    by_cases hm : m = ""
    · rw [if_pos hm] at hd
      cases hd
    · rw [if_neg hm] at hd
      exact hinv m hd

/-- Witness for C9: after subscribing with method `"accountSubscribe"`
the handler sits under `"slotNotification"`, the invariant holds, and
a dispatch can only happen for method `"slotNotification"`. -/
theorem C9_single_subscription_key_witness :
    subscribeGo emptySubs "accountSubscribe" 3 "slotNotification" = some 3
    ∧ ("slotNotification" : String) = "slotNotification" :=
  ⟨C9_single_subscription_key.2.2.2.1 emptySubs "accountSubscribe" 3,
   C9_single_subscription_key.2.2.2.2.2 (subscribeGo emptySubs "accountSubscribe" 3)
     "slotNotification"
     (C9_single_subscription_key.2.1 emptySubs (SubsOp.sub "accountSubscribe" 3)
       C9_single_subscription_key.1)
     (by decide)⟩

/-! ## Claim C10 -/

/-- C10: `ParseTransactions` on an empty signature list returns an
error immediately with no HTTP round trip; on a non-empty list an
error is returned if and only if serialization fails, the request
fails (creation, transport, or body read), or the response status is
not 200. -/
theorem C10_parse_transactions (sigs : List String) (marshalOk : Bool) (out : HttpOutcome) :
    (sigs = [] →
      (∃ e, (parseTransactionsGo sigs marshalOk out).1 = Except.error e)
      ∧ (parseTransactionsGo sigs marshalOk out).2 = 0)
    ∧ (sigs ≠ [] →
        ((∃ e, (parseTransactionsGo sigs marshalOk out).1 = Except.error e)
          ↔ (marshalOk = false
            ∨ out = HttpOutcome.createErr ∨ out = HttpOutcome.doErr ∨ out = HttpOutcome.readErr
            ∨ ∃ st body, out = HttpOutcome.resp st body ∧ st ≠ 200))) := by
  constructor
  · intro h
    subst h
    exact ⟨⟨"at least one signature required", rfl⟩, rfl⟩
  · intro hne
    have hlen : ¬ sigs.length = 0 := by
      simpa [List.length_eq_zero] using hne
    unfold parseTransactionsGo
    rw [if_neg hlen]
    cases marshalOk with
    | false => simp
    | true =>
      rw [if_neg (by simp)]
      unfold makeRequestWithAuth
      cases out with
      | createErr => simp
      | doErr => simp
      | readErr => simp
      | resp st body =>
        by_cases hst : st = 200
        · simp [hst]
        · simp [hst]

/-- Witness for C10: the empty list and a non-empty list against a 500
response and against a 200 response. -/
theorem C10_parse_transactions_witness :
    ((∃ e, (parseTransactionsGo [] true (HttpOutcome.resp 200 "ok")).1 = Except.error e)
      ∧ (parseTransactionsGo [] true (HttpOutcome.resp 200 "ok")).2 = 0)
    ∧ ((∃ e, (parseTransactionsGo ["sig1"] true (HttpOutcome.resp 500 "err")).1 = Except.error e)
        ↔ (true = false
          ∨ HttpOutcome.resp 500 "err" = HttpOutcome.createErr
          ∨ HttpOutcome.resp 500 "err" = HttpOutcome.doErr
          ∨ HttpOutcome.resp 500 "err" = HttpOutcome.readErr
          ∨ ∃ st body, HttpOutcome.resp 500 "err" = HttpOutcome.resp st body ∧ st ≠ 200)) :=
  ⟨(C10_parse_transactions [] true (HttpOutcome.resp 200 "ok")).1 rfl,
   (C10_parse_transactions ["sig1"] true (HttpOutcome.resp 500 "err")).2
     (by simp)⟩

end DatasGo
